import Mathlib

/-!
Verification of the zero-copy I/O library (`zc_io.c`).

Part 1 is a sequential (single-thread, no contention) shallow embedding of the
operations on a `zc_file`: the mapping contents are a `List Nat` of bytes, the
`off_t`/`size_t` fields become `Nat`/`Int`, and the outcomes of the fallible
system calls (`ftruncate`, `mremap`, `msync`) are oracle booleans passed to the
operation.  The two semaphores of the C code are used strictly as binary locks
in sequential executions, so the sequential model tracks only whether the
`room_empty` token is currently held (`roomHeld`); acquiring an available
binary semaphore sets it, posting clears it.

Part 2 models the readers-writer protocol of `zc_read_start`/`zc_read_end`/
`zc_write_start`/`zc_write_end` as a transition system by counter abstraction:
the state records how many threads sit at each program point of those
functions, the two semaphores, and the shared `n_readers` counter.
-/

namespace ZcIo

/-- Model of `struct zc_file`: `data` is the bytes visible through the mapping
at `base_ptr`, `size` is `file->size` (the mapped length), `offset` is
`file->offset`, `nReaders` is `file->n_readers`.  `diskSize` is the length of
the backing file on disk (changed by `ftruncate`), and `roomHeld` records
whether the `room_empty` semaphore token is currently taken. -/
structure ZcFile where
  data : List Nat
  size : Nat
  offset : Nat
  diskSize : Nat
  nReaders : Nat
  roomHeld : Bool
deriving Repr, DecidableEq

/-- Model of `zc_open` on a file whose current on-disk contents are
`diskContents` (empty list for a freshly created file).  If the stat'd size is
zero the file is mapped at length 1 ("allows for valid mmap subsequently");
the byte mapped past EOF reads as zero. -/
def zc_open (diskContents : List Nat) : ZcFile :=
  let stSize := diskContents.length
  let fileSize := if stSize = 0 then 1 else stSize
  { data := if stSize = 0 then [0] else diskContents
    size := fileSize
    offset := 0
    diskSize := stSize
    nReaders := 0
    roomHeld := false }

/-- The bytes delivered through a view of `len` bytes starting at byte offset
`start` of the mapping. -/
def readBytes (data : List Nat) (start len : Nat) : List Nat :=
  (data.drop start).take len

/-- The caller writing `bytes` through a view that starts at byte offset
`start` of the mapping. -/
def fillView (data : List Nat) (start : Nat) (bytes : List Nat) : List Nat :=
  data.take start ++ bytes ++ data.drop (start + bytes.length)

/-- Model of `zc_read_start`.  Returns the view (the start offset into the
mapping, `none` for the `NULL` return), the value stored through the `size`
out-parameter, and the updated file. -/
def zc_read_start (file : ZcFile) (sizeArg : Nat) : Option Nat × Nat × ZcFile :=
  let file := { file with
    nReaders := file.nReaders + 1
    roomHeld := if file.nReaders + 1 = 1 then true else file.roomHeld }
  if file.size ≤ file.offset then
    (none, 0, file)
  else
    let remaining := file.size - file.offset
    let actual := if remaining < sizeArg then remaining else sizeArg
    (some file.offset, actual, { file with offset := file.offset + actual })

/-- Model of `zc_read_end`. -/
def zc_read_end (file : ZcFile) : ZcFile :=
  { file with
    nReaders := file.nReaders - 1
    roomHeld := if file.nReaders - 1 = 0 then false else file.roomHeld }

/-- Model of `zc_write_start` with the outcomes of `ftruncate` and `mremap`
supplied as oracles.  Returns the view (`none` for the `NULL` return) and the
updated file.  On the growth path a successful `ftruncate` sets the on-disk
size to `new_size`; a successful `mremap` keeps the old bytes and the `memset`
zero-fills the newly exposed region. -/
def zc_write_start (file : ZcFile) (size : Nat) (truncOk remapOk : Bool) :
    Option Nat × ZcFile :=
  let file := { file with roomHeld := true }
  let remaining : Int := (file.size : Int) - (file.offset : Int)
  if (size : Int) ≤ remaining then
    (some file.offset, { file with offset := file.offset + size })
  else
    let newSize := file.offset + size
    if truncOk = false then
      (none, file)
    else
      let file := { file with diskSize := newSize }
      if remapOk = false then
        (none, file)
      else
        let file := { file with
          data := file.data ++ List.replicate (newSize - file.size) 0
          size := newSize }
        (some file.offset, { file with offset := file.offset + size })

/-- Model of `zc_write_end`: `msync` may fail (`msyncOk = false`), its error is
only reported; the `room_empty` token is posted either way. -/
def zc_write_end (file : ZcFile) (_msyncOk : Bool) : ZcFile :=
  { file with roomHeld := false }

/-- Model of `zc_lseek` (`whence`: 0 = `SEEK_SET`, 1 = `SEEK_CUR`,
2 = `SEEK_END`).  Returns the returned `off_t` and the updated file.  On the
`new_offset < 0` path the C function returns `-1` without `sem_post`, so
`roomHeld` stays set there. -/
def zc_lseek (file : ZcFile) (offset : Int) (whence : Int) : Int × ZcFile :=
  let file := { file with roomHeld := true }
  let newOffset : Int :=
    if whence = 0 then offset
    else if whence = 1 then (file.offset : Int) + offset
    else if whence = 2 then (file.size : Int) + offset
    else -1
  if newOffset < 0 then
    (-1, file)
  else
    (newOffset, { file with offset := newOffset.toNat, roomHeld := false })

/-- The `new_offset` computed by `zc_lseek` before its sign check: from the
start of the file, from the current cursor, or from the mapped length,
according to `whence`; `-1` for an unrecognized `whence`. -/
def seekTarget (file : ZcFile) (offset whence : Int) : Int :=
  if whence = 0 then offset
  else if whence = 1 then (file.offset : Int) + offset
  else if whence = 2 then (file.size : Int) + offset
  else -1

/-- Well-formedness of the model state: the mapping holds exactly
`mapped_length` bytes. -/
def WF (file : ZcFile) : Prop := file.data.length = file.size

/-- Size consistency: `mapped_length` equals the on-disk size of the backing
store, with the sole exception of the one-byte minimum-mapping floor of a
zero-length file before any write. -/
def SC (file : ZcFile) : Prop :=
  file.diskSize = file.size ∨ (file.diskSize = 0 ∧ file.size = 1)

/-!
## Concurrency model

Program points of a thread running the synchronization skeleton of
`zc_read_start` / `zc_read_end` / `zc_write_start` / `zc_write_end`:

reader entry (`zc_read_start`):
  `sem_wait(mutex); n_readers++;` → if the counter became 1 the thread stands
  before `sem_wait(room_empty)` (point `rWait`), otherwise before
  `sem_post(mutex)` (point `rUnlock`); after posting the mutex the thread is
  inside its read window (point `rIn`).
reader exit (`zc_read_end`):
  `sem_wait(mutex); n_readers--;` → if the counter became 0 the thread stands
  before `sem_post(room_empty)` (point `rRelease`), otherwise before
  `sem_post(mutex)` (point `rLeave`); posting the mutex returns it to `idle`.
writer: `sem_wait(room_empty)` puts the thread inside its write window
  (point `wIn`); `zc_write_end` posts `room_empty` and returns it to `idle`.

Thread identity is irrelevant to the claims, so the state is the counter
abstraction: how many threads sit at each point, plus the two semaphore
values and the shared `n_readers` counter. -/

/-- Counter-abstracted global state of the readers-writer protocol.  The two
semaphores carry their `sem_t` counter value (`sem_wait` needs a positive
value and decrements it, `sem_post` increments it); both are initialized
to 1. -/
structure Sys where
  mutex : Nat
  room : Nat
  nReaders : Nat
  idle : Nat
  rWait : Nat
  rUnlock : Nat
  rIn : Nat
  rRelease : Nat
  rLeave : Nat
  wIn : Nat
deriving Repr, DecidableEq

/-- Initial state with `n` idle threads: both semaphores available,
`n_readers = 0` (as set up by `zc_open`). -/
def initSys (n : Nat) : Sys :=
  { mutex := 1, room := 1, nReaders := 0, idle := n,
    rWait := 0, rUnlock := 0, rIn := 0, rRelease := 0, rLeave := 0, wIn := 0 }

/-- One atomic step of some thread. -/
inductive Step : Sys → Sys → Prop
  /-- `zc_read_start`, first half, when the increment makes `n_readers = 1`:
  the thread acquires the mutex, increments the counter, and now stands
  before `sem_wait(room_empty)`. -/
  | readLockFirst (s : Sys) (hIdle : 1 ≤ s.idle) (hm : 1 ≤ s.mutex)
      (hn : s.nReaders = 0) :
      Step s { s with
               mutex := s.mutex - 1
               nReaders := s.nReaders + 1
               idle := s.idle - 1
               rWait := s.rWait + 1 }
  /-- `zc_read_start`, first half, when the counter does not become 1: the
  thread skips the room acquisition and stands before `sem_post(mutex)`. -/
  | readLockMore (s : Sys) (hIdle : 1 ≤ s.idle) (hm : 1 ≤ s.mutex)
      (hn : s.nReaders ≠ 0) :
      Step s { s with
               mutex := s.mutex - 1
               nReaders := s.nReaders + 1
               idle := s.idle - 1
               rUnlock := s.rUnlock + 1 }
  /-- The first reader acquires the room: `sem_wait(room_empty)` succeeds. -/
  | readRoom (s : Sys) (h : 1 ≤ s.rWait) (hr : 1 ≤ s.room) :
      Step s { s with
               room := s.room - 1
               rWait := s.rWait - 1
               rUnlock := s.rUnlock + 1 }
  /-- `sem_post(mutex)` at the end of `zc_read_start`: the thread is now
  inside its read window. -/
  | readUnlock (s : Sys) (h : 1 ≤ s.rUnlock) :
      Step s { s with
               mutex := s.mutex + 1
               rUnlock := s.rUnlock - 1
               rIn := s.rIn + 1 }
  /-- `zc_read_end`, first half, when the decrement makes `n_readers = 0`:
  the last reader stands before `sem_post(room_empty)`. -/
  | readEndLockLast (s : Sys) (h : 1 ≤ s.rIn) (hm : 1 ≤ s.mutex)
      (hn : s.nReaders = 1) :
      Step s { s with
               mutex := s.mutex - 1
               nReaders := s.nReaders - 1
               rIn := s.rIn - 1
               rRelease := s.rRelease + 1 }
  /-- `zc_read_end`, first half, when the counter stays positive. -/
  | readEndLockMore (s : Sys) (h : 1 ≤ s.rIn) (hm : 1 ≤ s.mutex)
      (hn : 2 ≤ s.nReaders) :
      Step s { s with
               mutex := s.mutex - 1
               nReaders := s.nReaders - 1
               rIn := s.rIn - 1
               rLeave := s.rLeave + 1 }
  /-- The last reader releases the room: `sem_post(room_empty)`. -/
  | readRelease (s : Sys) (h : 1 ≤ s.rRelease) :
      Step s { s with
               room := s.room + 1
               rRelease := s.rRelease - 1
               rLeave := s.rLeave + 1 }
  /-- `sem_post(mutex)` at the end of `zc_read_end`. -/
  | readLeave (s : Sys) (h : 1 ≤ s.rLeave) :
      Step s { s with
               mutex := s.mutex + 1
               rLeave := s.rLeave - 1
               idle := s.idle + 1 }
  /-- `zc_write_start`: `sem_wait(room_empty)` succeeds and the thread is
  inside its write window. -/
  | writeStart (s : Sys) (hIdle : 1 ≤ s.idle) (hr : 1 ≤ s.room) :
      Step s { s with
               room := s.room - 1
               idle := s.idle - 1
               wIn := s.wIn + 1 }
  /-- `zc_write_end`: `sem_post(room_empty)`. -/
  | writeEnd (s : Sys) (h : 1 ≤ s.wIn) :
      Step s { s with
               room := s.room + 1
               wIn := s.wIn - 1
               idle := s.idle + 1 }

/-- Reachability from the initial state with `n` threads. -/
def Reach (n : Nat) (s : Sys) : Prop :=
  Relation.ReflTransGen Step (initSys n) s

/-- The inductive invariant of the protocol: (1) the shared counter counts the
threads between their increment and their decrement; (2) mutex token
accounting; (3) the room token is taken exactly by a writer in its window or
by the nonempty reader group (a reader past its `sem_wait(room_empty)` /
before its `sem_post(room_empty)`); (4) a thread waiting at `rWait` saw the
counter become 1, so no other reader is past its increment; (5) a thread at
`rRelease` saw the counter become 0, so no reader is between increment and
decrement. -/
def Inv (s : Sys) : Prop :=
  s.nReaders = s.rWait + s.rUnlock + s.rIn
  ∧ s.mutex + s.rWait + s.rUnlock + s.rRelease + s.rLeave = 1
  ∧ s.room + s.wIn + min 1 (s.rUnlock + s.rIn + s.rRelease) = 1
  ∧ min s.rWait (s.rUnlock + s.rIn) = 0
  ∧ min s.rRelease (s.rWait + s.rUnlock + s.rIn) = 0

/-- The quiescent state in which `k` of the `n` threads sit inside their read
windows: the room token is held by the reader group as soon as `k ≥ 1`. -/
def readersState (n k : Nat) : Sys :=
  { mutex := 1, room := if k = 0 then 1 else 0, nReaders := k, idle := n - k,
    rWait := 0, rUnlock := 0, rIn := k, rRelease := 0, rLeave := 0, wIn := 0 }

theorem inv_init (n : Nat) : Inv (initSys n) := by
  simp [Inv, initSys]

theorem inv_step {s s' : Sys} (hInv : Inv s) (hStep : Step s s') : Inv s' := by
  obtain ⟨h1, h2, h3, h4, h5⟩ := hInv
  cases hStep <;>
    exact ⟨by dsimp only; omega, by dsimp only; omega,
           by dsimp only; omega, by dsimp only; omega,
           by dsimp only; omega⟩

theorem inv_reach {n : Nat} {s : Sys} (h : Reach n s) : Inv s := by
  induction h with
  | refl => exact inv_init n
  | tail _ hstep ih => exact inv_step ih hstep

theorem reach_readersState (n : Nat) : ∀ k, k ≤ n → Reach n (readersState n k) := by
  intro k
  induction k with
  | zero =>
      intro _
      have e : readersState n 0 = initSys n := by
        simp [readersState, initSys]
      rw [Reach, e]
  | succ k ih =>
      intro hk
      have base : Reach n (readersState n k) := ih (by omega)
      rcases Nat.eq_zero_or_pos k with h0 | hpos
      · subst h0
        have t1 : Step (readersState n 0) ⟨0, 1, 1, n - 1, 1, 0, 0, 0, 0, 0⟩ :=
          Step.readLockFirst (readersState n 0) (by show 1 ≤ n - 0; omega)
            (Nat.le_refl 1) rfl
        have t2 : Step ⟨0, 1, 1, n - 1, 1, 0, 0, 0, 0, 0⟩
            ⟨0, 0, 1, n - 1, 0, 1, 0, 0, 0, 0⟩ :=
          Step.readRoom _ (Nat.le_refl 1) (Nat.le_refl 1)
        have t3 : Step ⟨0, 0, 1, n - 1, 0, 1, 0, 0, 0, 0⟩
            ⟨1, 0, 1, n - 1, 0, 0, 1, 0, 0, 0⟩ :=
          Step.readUnlock _ (Nat.le_refl 1)
        have e : readersState n 1 = ⟨1, 0, 1, n - 1, 0, 0, 1, 0, 0, 0⟩ := by
          simp [readersState]
        rw [Reach, e]
        exact ((base.tail t1).tail t2).tail t3
      · have hne : k ≠ 0 := by omega
        have t1 : Step (readersState n k)
            ⟨0, if k = 0 then 1 else 0, k + 1, n - k - 1, 0, 1, k, 0, 0, 0⟩ :=
          Step.readLockMore (readersState n k) (by show 1 ≤ n - k; omega)
            (Nat.le_refl 1) hne
        have t2 : Step ⟨0, if k = 0 then 1 else 0, k + 1, n - k - 1, 0, 1, k, 0, 0, 0⟩
            ⟨1, if k = 0 then 1 else 0, k + 1, n - k - 1, 0, 0, k + 1, 0, 0, 0⟩ :=
          Step.readUnlock _ (Nat.le_refl 1)
        have e : readersState n (k + 1)
            = ⟨1, if k = 0 then 1 else 0, k + 1, n - k - 1, 0, 0, k + 1, 0, 0, 0⟩ := by
          simp [readersState, hne, Nat.sub_sub]
        rw [Reach, e]
        exact (base.tail t1).tail t2

/-- A step that takes the room token while leaving `wIn` unchanged is the
`sem_wait(room_empty)` of a first reader: at that moment the shared counter
is 1 and no other reader is between its increment and its decrement. -/
theorem room_taken_by_reader {s s' : Sys} (hInv : Inv s) (hStep : Step s s')
    (hTake : s'.room < s.room) (hW : s'.wIn = s.wIn) :
    s.rWait = 1 ∧ s.nReaders = 1 ∧ s.rUnlock + s.rIn + s.rRelease = 0 := by
  obtain ⟨h1, h2, h3, h4, h5⟩ := hInv
  cases hStep <;> dsimp only at hTake hW <;> omega

/-- A step that returns the room token while leaving `wIn` unchanged is the
`sem_post(room_empty)` of a last reader: at that moment the shared counter
is 0 and no reader is between its increment and its decrement. -/
theorem room_freed_by_reader {s s' : Sys} (hInv : Inv s) (hStep : Step s s')
    (hFree : s.room < s'.room) (hW : s'.wIn = s.wIn) :
    s.rRelease = 1 ∧ s.nReaders = 0 ∧ s.rWait + s.rUnlock + s.rIn = 0 := by
  obtain ⟨h1, h2, h3, h4, h5⟩ := hInv
  cases hStep <;> dsimp only at hFree hW <;> omega

/-- A step that puts a thread into its write window takes the room token for
that single writer, and a step that removes one returns it. -/
theorem writer_room_individually {s s' : Sys} (hStep : Step s s') :
    (s.wIn < s'.wIn → s'.wIn = s.wIn + 1 ∧ 1 ≤ s.room ∧ s'.room = s.room - 1)
    ∧ (s'.wIn < s.wIn → s'.wIn = s.wIn - 1 ∧ s'.room = s.room + 1) := by
  cases hStep <;> constructor <;> intro h <;> dsimp only at h ⊢ <;> omega

/-! ## Characterizations of the sequential operations -/

theorem zc_read_start_eq (f : ZcFile) (r : Nat) :
    zc_read_start f r =
      if f.size ≤ f.offset then
        (none, 0, { f with
          nReaders := f.nReaders + 1
          roomHeld := if f.nReaders + 1 = 1 then true else f.roomHeld })
      else
        (some f.offset, min r (f.size - f.offset), { f with
          offset := f.offset + min r (f.size - f.offset)
          nReaders := f.nReaders + 1
          roomHeld := if f.nReaders + 1 = 1 then true else f.roomHeld }) := by
  have hmin : (if f.size - f.offset < r then f.size - f.offset else r)
      = min r (f.size - f.offset) := by
    split_ifs <;> omega
  simp only [zc_read_start, hmin]

theorem zc_write_start_ok (f : ZcFile) (size : Nat) :
    zc_write_start f size true true =
      if f.offset + size ≤ f.size then
        (some f.offset, { f with offset := f.offset + size, roomHeld := true })
      else
        (some f.offset, { f with
          data := f.data ++ List.replicate (f.offset + size - f.size) 0
          size := f.offset + size
          offset := f.offset + size
          diskSize := f.offset + size
          roomHeld := true }) := by
  have hc : ((size : Int) ≤ (f.size : Int) - (f.offset : Int))
      = (f.offset + size ≤ f.size) := by
    apply propext
    constructor <;> intro <;> omega
  simp only [zc_write_start, hc]
  split_ifs <;> simp_all

theorem zc_read_start_eof (f : ZcFile) (r : Nat) (h : f.size ≤ f.offset) :
    zc_read_start f r = (none, 0, { f with
      nReaders := f.nReaders + 1
      roomHeld := if f.nReaders + 1 = 1 then true else f.roomHeld }) := by
  rw [zc_read_start_eq, if_pos h]

theorem zc_read_start_mid (f : ZcFile) (r : Nat) (h : f.offset < f.size) :
    zc_read_start f r = (some f.offset, min r (f.size - f.offset), { f with
      offset := f.offset + min r (f.size - f.offset)
      nReaders := f.nReaders + 1
      roomHeld := if f.nReaders + 1 = 1 then true else f.roomHeld }) := by
  rw [zc_read_start_eq, if_neg (by omega)]

theorem zc_lseek_eq (f : ZcFile) (off whence : Int) :
    zc_lseek f off whence =
      if seekTarget f off whence < 0 then (-1, { f with roomHeld := true })
      else ((seekTarget f off whence),
        { f with offset := (seekTarget f off whence).toNat, roomHeld := false }) :=
  rfl

/-! ## Claims -/

/-- **C3** (read-window semantics): for every handle and requested size,
`zc_read_start` stores `actual_size = min(requested, mapped_length − cursor)`
through the out-parameter (the truncated subtraction clamps it to 0 once the
cursor is at or past `mapped_length`), the returned view starts at the old
cursor, the cursor advances by exactly `actual_size`, and a read at or past
end-of-file yields `actual_size = 0` with no view — not an error. -/
theorem read_window_semantics (f : ZcFile) (requested : Nat) :
    (zc_read_start f requested).2.1 = min requested (f.size - f.offset)
    ∧ (zc_read_start f requested).2.2.offset
        = f.offset + (zc_read_start f requested).2.1
    ∧ (f.size ≤ f.offset →
        (zc_read_start f requested).2.1 = 0 ∧ (zc_read_start f requested).1 = none)
    ∧ (f.offset < f.size → (zc_read_start f requested).1 = some f.offset) := by
  rcases le_or_lt f.size f.offset with h | h
  · rw [zc_read_start_eof f requested h]
    exact ⟨by show (0 : Nat) = min requested (f.size - f.offset); omega,
      by show f.offset = f.offset + 0; omega,
      fun _ => ⟨rfl, rfl⟩, fun hlt => absurd hlt (by omega)⟩
  · rw [zc_read_start_mid f requested h]
    exact ⟨rfl, rfl, fun hle => absurd hle (by omega), fun _ => rfl⟩

theorem read_window_semantics_witness :
    (zc_read_start (zc_open [10, 20]) 5).2.1 = min 5 (2 - 0)
    ∧ (zc_read_start (zc_open [10, 20]) 5).2.2.offset
        = 0 + (zc_read_start (zc_open [10, 20]) 5).2.1
    ∧ ((2 : Nat) ≤ 0 → (zc_read_start (zc_open [10, 20]) 5).2.1 = 0
        ∧ (zc_read_start (zc_open [10, 20]) 5).1 = none)
    ∧ ((0 : Nat) < 2 → (zc_read_start (zc_open [10, 20]) 5).1 = some 0) :=
  read_window_semantics (zc_open [10, 20]) 5

/-- **C10**: `zc_read_start` returns a `NULL` view exactly when the cursor is
at or past `mapped_length` (EOF), and then leaves the cursor unchanged;
whenever the cursor is strictly inside the mapping it returns a view at the
cursor, even when the requested size is 0. -/
theorem read_null_iff_eof (f : ZcFile) (requested : Nat) :
    ((zc_read_start f requested).1 = none ↔ f.size ≤ f.offset)
    ∧ (f.size ≤ f.offset → (zc_read_start f requested).2.2.offset = f.offset)
    ∧ (f.offset < f.size → (zc_read_start f requested).1 = some f.offset) := by
  rcases le_or_lt f.size f.offset with h | h
  · rw [zc_read_start_eof f requested h]
    exact ⟨iff_of_true rfl h, fun _ => rfl, fun hlt => absurd hlt (by omega)⟩
  · rw [zc_read_start_mid f requested h]
    exact ⟨iff_of_false (by simp) (by omega), fun hle => absurd hle (by omega),
      fun _ => rfl⟩

theorem read_null_iff_eof_witness :
    ((zc_read_start (zc_open [7]) 0).1 = none ↔ (1 : Nat) ≤ 0)
    ∧ ((1 : Nat) ≤ 0 → (zc_read_start (zc_open [7]) 0).2.2.offset = 0)
    ∧ ((0 : Nat) < 1 → (zc_read_start (zc_open [7]) 0).1 = some 0) :=
  read_null_iff_eof (zc_open [7]) 0

/-- **C5** (seek raises-iff): `zc_lseek` fails with `-1` exactly when the
position computed according to the mode (from start / from the cursor / from
`mapped_length`) would be negative or the mode is unrecognized (an
unrecognized mode computes `-1`, which is negative); on failure the cursor is
unchanged, and on success the computed position — `mapped_length` is no upper
bound — is stored as the cursor and returned. -/
theorem lseek_raises_iff (f : ZcFile) (off whence : Int) :
    ((zc_lseek f off whence).1 = -1 ↔
      (whence = 0 ∧ off < 0) ∨ (whence = 1 ∧ (f.offset : Int) + off < 0)
      ∨ (whence = 2 ∧ (f.size : Int) + off < 0)
      ∨ (whence ≠ 0 ∧ whence ≠ 1 ∧ whence ≠ 2))
    ∧ ((zc_lseek f off whence).1 = -1 → (zc_lseek f off whence).2.offset = f.offset)
    ∧ (0 ≤ seekTarget f off whence →
        (zc_lseek f off whence).1 = seekTarget f off whence
        ∧ ((zc_lseek f off whence).2.offset : Int) = seekTarget f off whence) := by
  have hiff : seekTarget f off whence < 0 ↔
      (whence = 0 ∧ off < 0) ∨ (whence = 1 ∧ (f.offset : Int) + off < 0)
      ∨ (whence = 2 ∧ (f.size : Int) + off < 0)
      ∨ (whence ≠ 0 ∧ whence ≠ 1 ∧ whence ≠ 2) := by
    unfold seekTarget
    split_ifs with h0 h1 h2
    · subst h0
      simp
    · subst h1
      simp [h0]
    · subst h2
      simp [h0, h1]
    · simp [h0, h1, h2]
  rw [zc_lseek_eq]
  by_cases h : seekTarget f off whence < 0
  · rw [if_pos h]
    exact ⟨iff_of_true rfl (hiff.mp h), fun _ => rfl,
      fun hpos => absurd hpos (by omega)⟩
  · rw [if_neg h]
    exact ⟨iff_of_false (by omega) (fun hd => h (hiff.mpr hd)),
      fun he => absurd he (by omega),
      fun hpos => ⟨rfl, by rw [Int.toNat_of_nonneg hpos]⟩⟩

theorem lseek_raises_iff_witness :
    ((zc_lseek (zc_open []) 7 0).1 = -1 ↔
      ((0 : Int) = 0 ∧ (7 : Int) < 0) ∨ ((0 : Int) = 1 ∧ (0 : Int) + 7 < 0)
      ∨ ((0 : Int) = 2 ∧ (1 : Int) + 7 < 0)
      ∨ ((0 : Int) ≠ 0 ∧ (0 : Int) ≠ 1 ∧ (0 : Int) ≠ 2))
    ∧ ((zc_lseek (zc_open []) 7 0).1 = -1 → (zc_lseek (zc_open []) 7 0).2.offset = 0)
    ∧ (0 ≤ seekTarget (zc_open []) 7 0 →
        (zc_lseek (zc_open []) 7 0).1 = seekTarget (zc_open []) 7 0
        ∧ ((zc_lseek (zc_open []) 7 0).2.offset : Int) = seekTarget (zc_open []) 7 0) :=
  lseek_raises_iff (zc_open []) 7 0

/-- **C9** (views lie within the mapping): a non-`NULL` read view spans
`[cursor, cursor + actual_size) ⊆ [0, mapped_length]`, a non-`NULL` write view
spans `[cursor, cursor + size) ⊆ [0, mapped_length]` after any growth, and
after either call returns a view the cursor does not exceed `mapped_length`. -/
theorem views_within_mapping :
    (∀ f r start actual f', zc_read_start f r = (some start, actual, f') →
      start = f.offset ∧ start + actual ≤ f.size ∧ f'.size = f.size
        ∧ f'.offset ≤ f'.size)
    ∧ (∀ f sz tOk rOk start f', zc_write_start f sz tOk rOk = (some start, f') →
      start = f.offset ∧ start + sz ≤ f'.size ∧ f'.offset ≤ f'.size) := by
  constructor
  · intro f r start actual f' h
    rcases le_or_lt f.size f.offset with hc | hc
    · rw [zc_read_start_eof f r hc] at h
      simp at h
    · rw [zc_read_start_mid f r hc] at h
      simp only [Prod.mk.injEq, Option.some.injEq] at h
      obtain ⟨hs, ha, hf⟩ := h
      subst hs ha hf
      exact ⟨rfl, by show f.offset + _ ≤ f.size; omega, rfl,
        by show f.offset + _ ≤ f.size; omega⟩
  · intro f sz tOk rOk start f' h
    simp only [zc_write_start] at h
    split_ifs at h with hc ht hr
    · simp only [Prod.mk.injEq, Option.some.injEq] at h
      obtain ⟨hs, hf⟩ := h
      subst hs hf
      exact ⟨rfl, by show f.offset + sz ≤ f.size; omega,
        by show f.offset + sz ≤ f.size; omega⟩
    · simp at h
    · simp at h
    · simp only [Prod.mk.injEq, Option.some.injEq] at h
      obtain ⟨hs, hf⟩ := h
      subst hs hf
      exact ⟨rfl, Nat.le_refl _, Nat.le_refl _⟩

theorem views_within_mapping_witness :
    ((0 : Nat) = 0 ∧ 0 + 2 ≤ 3 ∧ (3 : Nat) = 3 ∧ (2 : Nat) ≤ 3)
    ∧ ((0 : Nat) = 0 ∧ 0 + 3 ≤ 3 ∧ (3 : Nat) ≤ 3) :=
  ⟨views_within_mapping.1 (zc_open [1, 2, 3]) 2 0 2
      ⟨[1, 2, 3], 3, 2, 3, 1, true⟩ (by decide),
   views_within_mapping.2 (zc_open [1]) 3 true true 0
      ⟨[1, 0, 0], 3, 3, 3, 0, true⟩ (by decide)⟩

theorem fillView_length (d : List Nat) (s : Nat) (b : List Nat)
    (h : s + b.length ≤ d.length) : (fillView d s b).length = d.length := by
  simp only [fillView, List.length_append, List.length_take, List.length_drop]
  omega

theorem readBytes_fillView (d : List Nat) (s : Nat) (b : List Nat)
    (h : s ≤ d.length) : readBytes (fillView d s b) s b.length = b := by
  unfold readBytes fillView
  rw [List.append_assoc, List.drop_left' (by simp; omega), List.take_left' rfl]

/-- A `zc_write_start` whose system calls succeed: returns the view at the old
cursor, guarantees the mapping covers `[0, cursor + size)`, keeps the mapping
the same length as `mapped_length`, and advances the cursor by `size`. -/
theorem zc_write_start_ok_facts (f : ZcFile) (sz : Nat) (hWF : WF f) :
    (zc_write_start f sz true true).1 = some f.offset
    ∧ f.offset + sz ≤ (zc_write_start f sz true true).2.size
    ∧ (zc_write_start f sz true true).2.data.length
        = (zc_write_start f sz true true).2.size
    ∧ (zc_write_start f sz true true).2.offset = f.offset + sz
    ∧ (zc_write_start f sz true true).2.data.take f.size = f.data.take f.size
    ∧ f.size ≤ (zc_write_start f sz true true).2.size := by
  have hl : f.data.length = f.size := hWF
  rw [zc_write_start_ok]
  split_ifs with hc
  · exact ⟨rfl, hc, hWF, rfl, rfl, Nat.le_refl _⟩
  · refine ⟨rfl, Nat.le_refl _, ?_, rfl, ?_,
      by show f.size ≤ f.offset + sz; omega⟩
    · show (f.data ++ List.replicate (f.offset + sz - f.size) 0).length
        = f.offset + sz
      rw [List.length_append, List.length_replicate, hl]
      omega
    · show (f.data ++ List.replicate (f.offset + sz - f.size) 0).take f.size
        = f.data.take f.size
      rw [List.take_append_of_le_length (by omega)]

/-- `zc_lseek` with `SEEK_SET` to a non-negative position always succeeds. -/
theorem zc_lseek_set (f : ZcFile) (k : Nat) :
    zc_lseek f (k : Int) 0 =
      ((k : Int), { f with offset := k, roomHeld := false }) := by
  rw [zc_lseek_eq]
  have ht : seekTarget f (k : Int) 0 = (k : Int) := by
    unfold seekTarget
    simp
  rw [ht, if_neg (by omega)]
  rfl

/-- **C6** (exhibit): `zc_write_end` posts the room token even when its
`msync` fails, but a `zc_lseek` that is rejected with an error returns `-1`
without reaching its `sem_post(room_empty)`: after the failed seek the room
token is still held and every later `zc_write_start`/`zc_lseek` on the handle
blocks forever. -/
theorem failed_lseek_keeps_room_held :
    (zc_write_end (zc_open []) false).roomHeld = false
    ∧ (zc_lseek (zc_open []) (-5) 0).1 = -1
    ∧ (zc_lseek (zc_open []) (-5) 0).2.roomHeld = true := by
  refine ⟨rfl, ?_, ?_⟩ <;> decide

/-- **C8** (exhibit): on a freshly opened empty file — zero bytes on disk,
mapping floored at length 1 — `zc_read_start` with requested size 5 returns
`actual_size = 1` and a view of the floor byte: the mapping floor is handed
out as file content instead of the claimed `actual_size = 0`. -/
theorem empty_file_read_exposes_floor :
    (zc_open []).diskSize = 0
    ∧ (zc_open []).size = 1
    ∧ (zc_read_start (zc_open []) 5).2.1 = 1
    ∧ (zc_read_start (zc_open []) 5).1 = some 0 := by decide

/-- **C7** (counterexample): starting from a one-byte file, where
`mapped_length` equals the on-disk size, a `zc_write_start` whose `ftruncate`
succeeds and whose `mremap` then fails returns no view yet leaves the on-disk
size at the growth target 3 while `mapped_length` is still 1 — the claimed
invariant does not survive this failed `write_start`. -/
theorem size_consistency_counterexample :
    (zc_write_start (zc_open [9]) 3 true false).1 = none
    ∧ (zc_write_start (zc_open [9]) 3 true false).2.diskSize = 3
    ∧ (zc_write_start (zc_open [9]) 3 true false).2.size = 1 := by decide

/-- **C7** (amended): size consistency (`mapped_length` = on-disk size, up to
the one-byte floor of a zero-length file) is established by `zc_open` and
preserved by every operation — a failed `ftruncate` included — except a
`zc_write_start` in which `ftruncate` succeeded and `mremap` then failed, the
path of the counterexample. -/
theorem size_consistency_amended :
    (∀ d, SC (zc_open d))
    ∧ (∀ f r, SC f → SC (zc_read_start f r).2.2)
    ∧ (∀ f, SC f → SC (zc_read_end f))
    ∧ (∀ f b, SC f → SC (zc_write_end f b))
    ∧ (∀ f off w, SC f → SC (zc_lseek f off w).2)
    ∧ (∀ f sz tOk rOk, SC f → (tOk = true → rOk = true) →
        SC (zc_write_start f sz tOk rOk).2) := by
  refine ⟨?_, ?_, ?_, ?_, ?_, ?_⟩
  · intro d
    by_cases hd : d.length = 0
    · exact Or.inr ⟨by simp [zc_open, hd], by simp [zc_open, hd]⟩
    · exact Or.inl (by simp [zc_open, hd])
  · intro f r hSC
    rcases le_or_lt f.size f.offset with h | h
    · rw [zc_read_start_eof f r h]
      exact hSC
    · rw [zc_read_start_mid f r h]
      exact hSC
  · intro f hSC
    exact hSC
  · intro f b hSC
    exact hSC
  · intro f off w hSC
    rw [zc_lseek_eq]
    split_ifs <;> exact hSC
  · intro f sz tOk rOk hSC himp
    cases tOk
    · simp only [zc_write_start]
      split_ifs <;> exact hSC
    · cases rOk
      · exact absurd (himp rfl) (by decide)
      · simp only [zc_write_start]
        split_ifs <;> first | exact hSC | exact Or.inl rfl

theorem size_consistency_amended_witness :
    SC (zc_open []) ∧ SC (zc_write_start (zc_open [9]) 3 true true).2 :=
  ⟨size_consistency_amended.1 [],
   size_consistency_amended.2.2.2.2.2 (zc_open [9]) 3 true true
     (Or.inl rfl) (fun _ => rfl)⟩

/-- **C2** (dynamic growth on overflow write): whenever
`cursor + size > mapped_length` and both system calls succeed,
`zc_write_start` extends the backing store and the mapping to exactly
`cursor + size`, keeps every byte of `[0, old mapped_length)`, zero-fills
`[old mapped_length, new length)`, updates `mapped_length`, and returns the
view at the old cursor; in particular writing `"abc"` at 0, seeking to 10 and
writing `"xyz"` yields the file bytes `"abc"`, seven zero bytes, `"xyz"`. -/
theorem write_growth (f : ZcFile) (sz : Nat) (hWF : WF f)
    (hover : f.size < f.offset + sz) :
    ((zc_write_start f sz true true).1 = some f.offset
    ∧ (zc_write_start f sz true true).2.size = f.offset + sz
    ∧ (zc_write_start f sz true true).2.diskSize = f.offset + sz
    ∧ (zc_write_start f sz true true).2.data.take f.size = f.data
    ∧ (zc_write_start f sz true true).2.data.drop f.size
        = List.replicate (f.offset + sz - f.size) 0)
    ∧ (let w1 := zc_write_start (zc_open []) 3 true true
       let f1 := { w1.2 with data := fillView w1.2.data 0 [97, 98, 99] }
       let f2 := zc_write_end f1 true
       let s3 := zc_lseek f2 10 0
       let w4 := zc_write_start s3.2 3 true true
       let f4 := { w4.2 with data := fillView w4.2.data 10 [120, 121, 122] }
       let f5 := zc_write_end f4 true
       f5.data = [97, 98, 99, 0, 0, 0, 0, 0, 0, 0, 120, 121, 122]
       ∧ f5.size = 13 ∧ f5.diskSize = 13) := by
  constructor
  · rw [zc_write_start_ok, if_neg (by omega)]
    refine ⟨rfl, rfl, rfl, ?_, ?_⟩
    · show (f.data ++ List.replicate (f.offset + sz - f.size) 0).take f.size
        = f.data
      rw [← hWF, List.take_left]
    · show (f.data ++ List.replicate (f.offset + sz - f.size) 0).drop f.size
        = List.replicate (f.offset + sz - f.size) 0
      rw [← hWF, List.drop_left]
  · decide

theorem write_growth_witness :
    ((zc_write_start (zc_open [9]) 3 true true).1 = some 0
    ∧ (zc_write_start (zc_open [9]) 3 true true).2.size = 0 + 3
    ∧ (zc_write_start (zc_open [9]) 3 true true).2.diskSize = 0 + 3
    ∧ (zc_write_start (zc_open [9]) 3 true true).2.data.take 1 = [9]
    ∧ (zc_write_start (zc_open [9]) 3 true true).2.data.drop 1
        = List.replicate (0 + 3 - 1) 0)
    ∧ (let w1 := zc_write_start (zc_open []) 3 true true
       let f1 := { w1.2 with data := fillView w1.2.data 0 [97, 98, 99] }
       let f2 := zc_write_end f1 true
       let s3 := zc_lseek f2 10 0
       let w4 := zc_write_start s3.2 3 true true
       let f4 := { w4.2 with data := fillView w4.2.data 10 [120, 121, 122] }
       let f5 := zc_write_end f4 true
       f5.data = [97, 98, 99, 0, 0, 0, 0, 0, 0, 0, 120, 121, 122]
       ∧ f5.size = 13 ∧ f5.diskSize = 13) :=
  write_growth (zc_open [9]) 3 rfl (by decide)

/-- **C1** (round-trip identity): for every byte sequence `B` of length `n`,
after `zc_write_start(n)` (system calls succeeding) returns a view that is
filled with `B` and `zc_write_end` completes, seeking back to the same offset
and performing `zc_read_start(n)` yields `actual_size = n`, the `n` bytes
read through the view are exactly `B`, and for `n > 0` the view is at that
offset.  The intermediate states of the pipeline are named by the equation
hypotheses `h1`–`h4`. -/
theorem write_read_round_trip (f : ZcFile) (B : List Nat) (n : Nat)
    (hB : B.length = n) (hWF : WF f)
    (f1 : ZcFile) (h1 : f1 = (zc_write_start f n true true).2)
    (f2 : ZcFile) (h2 : f2 = { f1 with data := fillView f1.data f.offset B })
    (f3 : ZcFile) (h3 : f3 = zc_write_end f2 true)
    (f4 : ZcFile) (h4 : f4 = (zc_lseek f3 (f.offset : Int) 0).2) :
    (zc_write_start f n true true).1 = some f.offset
    ∧ (zc_lseek f3 (f.offset : Int) 0).1 = (f.offset : Int)
    ∧ (zc_read_start f4 n).2.1 = n
    ∧ readBytes (zc_read_start f4 n).2.2.data f.offset n = B
    ∧ (0 < n → (zc_read_start f4 n).1 = some f.offset) := by
  obtain ⟨hview, hsize, hlen, hoffw, -, -⟩ := zc_write_start_ok_facts f n hWF
  rw [← h1] at hsize hlen
  have hf4o : f4.offset = f.offset := by rw [h4, zc_lseek_set]
  have hf4s : f4.size = f1.size := by
    rw [h4, zc_lseek_set, h3, h2]
    rfl
  have hf4d : f4.data = fillView f1.data f.offset B := by
    rw [h4, zc_lseek_set, h3, h2]
    rfl
  have hfill : readBytes f4.data f.offset n = B := by
    rw [hf4d, ← hB]
    exact readBytes_fillView f1.data f.offset B (by omega)
  refine ⟨hview, by rw [zc_lseek_set], ?_, ?_, ?_⟩
  · rcases Nat.eq_zero_or_pos n with hn | hn
    · subst hn
      rcases le_or_lt f4.size f4.offset with h | h
      · rw [zc_read_start_eof f4 0 h]
      · rw [zc_read_start_mid f4 0 h]
        show min 0 (f4.size - f4.offset) = 0
        omega
    · have hlt : f4.offset < f4.size := by rw [hf4o, hf4s]; omega
      rw [zc_read_start_mid f4 n hlt]
      show min n (f4.size - f4.offset) = n
      rw [hf4o, hf4s]
      omega
  · rcases Nat.eq_zero_or_pos n with hn | hn
    · subst hn
      have hB0 : B = [] := List.eq_nil_of_length_eq_zero hB
      subst hB0
      rcases le_or_lt f4.size f4.offset with h | h
      · rw [zc_read_start_eof f4 0 h]
        rfl
      · rw [zc_read_start_mid f4 0 h]
        rfl
    · have hlt : f4.offset < f4.size := by rw [hf4o, hf4s]; omega
      rw [zc_read_start_mid f4 n hlt]
      exact hfill
  · intro hn
    have hlt : f4.offset < f4.size := by rw [hf4o, hf4s]; omega
    rw [zc_read_start_mid f4 n hlt, hf4o]

theorem write_read_round_trip_witness :
    (zc_write_start (zc_open []) 2 true true).1 = some 0
    ∧ (zc_lseek (⟨[104, 105], 2, 2, 2, 0, false⟩ : ZcFile) ((0 : Nat) : Int) 0).1
        = ((0 : Nat) : Int)
    ∧ (zc_read_start (⟨[104, 105], 2, 0, 2, 0, false⟩ : ZcFile) 2).2.1 = 2
    ∧ readBytes
        (zc_read_start (⟨[104, 105], 2, 0, 2, 0, false⟩ : ZcFile) 2).2.2.data 0 2
        = [104, 105]
    ∧ (0 < 2 →
        (zc_read_start (⟨[104, 105], 2, 0, 2, 0, false⟩ : ZcFile) 2).1 = some 0) :=
  write_read_round_trip (zc_open []) [104, 105] 2 rfl rfl
    ⟨[0, 0], 2, 2, 2, 0, true⟩ (by decide)
    ⟨[104, 105], 2, 2, 2, 0, true⟩ (by decide)
    ⟨[104, 105], 2, 2, 2, 0, false⟩ (by decide)
    ⟨[104, 105], 2, 0, 2, 0, false⟩ (by decide)

/-- **C4** (readers-writer exclusion): in every reachable protocol state at
most one thread is inside a write window and never a reader and a writer
simultaneously; for every `k ≤ n` the state with `k` readers simultaneously
inside their read windows is reachable; a step that takes the room token
without entering a write window is the `sem_wait(room_empty)` of a first
reader — at that moment `n_readers = 1` and it is the only reader past its
increment — and a step that returns the token without leaving a write window
is the `sem_post(room_empty)` of a last reader, with `n_readers = 0`; every
writer takes and returns the token individually. -/
theorem readers_writer_exclusion :
    (∀ n s, Reach n s → s.wIn ≤ 1 ∧ (1 ≤ s.rIn → s.wIn = 0))
    ∧ (∀ n k, k ≤ n → Reach n (readersState n k) ∧ (readersState n k).rIn = k)
    ∧ (∀ n s s', Reach n s → Step s s' → s'.room < s.room → s'.wIn = s.wIn →
        s.rWait = 1 ∧ s.nReaders = 1 ∧ s.rUnlock + s.rIn + s.rRelease = 0)
    ∧ (∀ n s s', Reach n s → Step s s' → s.room < s'.room → s'.wIn = s.wIn →
        s.rRelease = 1 ∧ s.nReaders = 0 ∧ s.rWait + s.rUnlock + s.rIn = 0)
    ∧ (∀ s s', Step s s' →
        (s.wIn < s'.wIn → s'.wIn = s.wIn + 1 ∧ 1 ≤ s.room ∧ s'.room = s.room - 1)
        ∧ (s'.wIn < s.wIn → s'.wIn = s.wIn - 1 ∧ s'.room = s.room + 1)) := by
  refine ⟨?_, ?_, ?_, ?_, ?_⟩
  · intro n s hs
    obtain ⟨h1, h2, h3, h4, h5⟩ := inv_reach hs
    exact ⟨by omega, fun h => by omega⟩
  · intro n k hk
    exact ⟨reach_readersState n k hk, rfl⟩
  · intro n s s' hs hstep htake hw
    exact room_taken_by_reader (inv_reach hs) hstep htake hw
  · intro n s s' hs hstep hfree hw
    exact room_freed_by_reader (inv_reach hs) hstep hfree hw
  · intro s s' hstep
    exact writer_room_individually hstep

theorem readers_writer_exclusion_witness :
    ((readersState 3 2).wIn ≤ 1
      ∧ (1 ≤ (readersState 3 2).rIn → (readersState 3 2).wIn = 0))
    ∧ (Reach 3 (readersState 3 2) ∧ (readersState 3 2).rIn = 2) :=
  ⟨readers_writer_exclusion.1 3 (readersState 3 2)
      (readers_writer_exclusion.2.1 3 2 (by decide)).1,
   readers_writer_exclusion.2.1 3 2 (by decide)⟩

end ZcIo
